import Mathlib

/-!
Verification of the observable state container in src/store.ts
(react-tree-store).  The embedding models

* a JavaScript heap of plain objects (`Heap`); values (`JSVal`) are
  either primitives or object references, so the strict equality
  operator of the source is plain decidable equality on `JSVal`
  (identity on references, value equality on primitives; the state is
  JSON-shaped, so the NaN corner of strict equality does not arise),
* lodash `_.cloneDeep` (`cloneDeep`, fuelled for termination),
  lodash `_.get` (`getPath`, paths already split into segments) and
  lodash `_.assign` (`assignFields`),
* the store closure of the source: `state`, `queued`, the listener
  `Set`, and the `setTimeout` flush task.  `SStore` carries the
  scheduling layer over an abstract state type; `HStore` carries the
  heap layer (`construct`, `getTree`, `set`, `reset`, `notify`),
* the subscription callback installed by `useSubtree`
  (`useSubtreeRun`).

Deep structural equality of heap values is expressed through
`readBack` (a fuelled read of an object graph into a pure `JTree`), and
aliasing through `reach` (the addresses an object graph visits).
-/

inductive Prim where
  | null
  | undef
  | bool (b : Bool)
  | num (n : Int)
  | str (s : String)
deriving DecidableEq

/-- A JavaScript value: a primitive, or a reference to a heap object.
Strict equality of the source is definitional equality here. -/
inductive JSVal where
  | prim (p : Prim)
  | ref (a : Nat)
deriving DecidableEq

/-- The own enumerable fields of one JavaScript object, in key order. -/
abbrev Fields := List (String × JSVal)

/-- First binding of an address in an association list. -/
def findFs : List (Nat × Fields) → Nat → Option Fields
  | [], _ => none
  | (a, fs) :: rest, b => if a = b then some fs else findFs rest b

/-- The JavaScript object heap: allocated objects plus the next fresh
address. -/
structure Heap where
  objs : List (Nat × Fields)
  next : Nat
deriving DecidableEq

def Heap.get (h : Heap) (a : Nat) : Option Fields := findFs h.objs a

/-- Allocate a fresh object, returning the new heap and its address. -/
def Heap.alloc (h : Heap) (fs : Fields) : Heap × Nat :=
  (⟨(h.next, fs) :: h.objs, h.next + 1⟩, h.next)

/-- Overwrite the fields of the object at address `a` (in-place
mutation of a JavaScript object). -/
def Heap.setObj (h : Heap) (a : Nat) (fs : Fields) : Heap :=
  ⟨h.objs.map (fun p => if p.1 = a then (a, fs) else p), h.next⟩

/-- Every reference inside the value points below `N`. -/
def valRefsLt (N : Nat) : JSVal → Prop
  | .prim _ => True
  | .ref a => a < N

instance (N : Nat) : (v : JSVal) → Decidable (valRefsLt N v)
  | .prim _ => .isTrue True.intro
  | .ref a => Nat.decLt a N

/-- Heap well-formedness: all allocated addresses and all references
stored in fields lie below `next`. -/
def Heap.WF (h : Heap) : Prop :=
  ∀ p ∈ h.objs, p.1 < h.next ∧ ∀ q ∈ p.2, valRefsLt h.next q.2

instance (h : Heap) : Decidable h.WF :=
  inferInstanceAs
    (Decidable (∀ p ∈ h.objs, p.1 < h.next ∧ ∀ q ∈ p.2, valRefsLt h.next q.2))

/-- lodash `_.get`: walk the path segments; a missing segment or a
non-object intermediate yields `undefined`, never an error. -/
def getPath (h : Heap) : JSVal → List String → JSVal
  | v, [] => v
  | .prim _, _ :: _ => .prim .undef
  | .ref a, k :: rest =>
    match h.get a with
    | none => .prim .undef
    | some fs =>
      match fs.lookup k with
      | none => .prim .undef
      | some v => getPath h v rest

/-- Ordinary field lookup of a JavaScript object (keys are unique). -/
def lookupF : Fields → String → Option JSVal
  | [], _ => none
  | (k, v) :: rest, k' => if k = k' then some v else lookupF rest k'

/-- Property write of a JavaScript object: overwrite the key if
present, append it otherwise. -/
def setField : Fields → String → JSVal → Fields
  | [], k, v => [(k, v)]
  | (k', v') :: rest, k, v =>
    if k' = k then (k, v) :: rest else (k', v') :: setField rest k v

/-- lodash `_.assign`: copy the source's own keys onto the target, in
key order, top level only. -/
def assignFields (t : Fields) : Fields → Fields
  | [] => t
  | (k, v) :: rest => assignFields (setField t k v) rest

/-- Clone each field value with the supplied cloner, threading the
heap left to right. -/
def cloneFsWith (cl : Heap → JSVal → Option (Heap × JSVal)) :
    Heap → Fields → Option (Heap × Fields)
  | h, [] => some (h, [])
  | h, (k, v) :: rest =>
    match cl h v with
    | none => none
    | some (h1, v1) =>
      match cloneFsWith cl h1 rest with
      | none => none
      | some (h2, fs2) => some (h2, (k, v1) :: fs2)

/-- lodash `_.cloneDeep`: structurally copy an object graph into
fresh allocations.  The fuel bounds the depth (the source relies on
the graph being an acyclic JSON-shaped tree). -/
def cloneDeep : Nat → Heap → JSVal → Option (Heap × JSVal)
  | _, h, .prim p => some (h, .prim p)
  | 0, _, .ref _ => none
  | n + 1, h, .ref a =>
    match h.get a with
    | none => none
    | some fs =>
      match cloneFsWith (cloneDeep n) h fs with
      | none => none
      | some (h1, fs1) => some ((h1.alloc fs1).1, .ref (h1.alloc fs1).2)

/-- A pure value tree: the identity-free shape of a heap value, used
to state deep structural equality. -/
inductive JTree where
  | prim (p : Prim)
  | node (fields : List (String × JTree))

/-- Read each field value back with the supplied reader. -/
def readFsWith (rd : JSVal → Option JTree) : Fields → Option (List (String × JTree))
  | [] => some []
  | (k, v) :: rest =>
    match rd v with
    | none => none
    | some t =>
      match readFsWith rd rest with
      | none => none
      | some ts => some ((k, t) :: ts)

/-- Read an object graph back into a pure `JTree` (fuelled). -/
def readBack : Nat → Heap → JSVal → Option JTree
  | _, _, .prim p => some (.prim p)
  | 0, _, .ref _ => none
  | n + 1, h, .ref a =>
    match h.get a with
    | none => none
    | some fs =>
      match readFsWith (readBack n h) fs with
      | none => none
      | some ts => some (.node ts)

/-- Collect the addresses each field value reaches. -/
def reachFsWith (rc : JSVal → Option (List Nat)) : Fields → Option (List Nat)
  | [] => some []
  | (_, v) :: rest =>
    match rc v with
    | none => none
    | some L1 =>
      match reachFsWith rc rest with
      | none => none
      | some L2 => some (L1 ++ L2)

/-- The addresses an object graph visits (fuelled); two values alias
a node exactly when their reach lists intersect. -/
def reach : Nat → Heap → JSVal → Option (List Nat)
  | _, _, .prim _ => some []
  | 0, _, .ref _ => none
  | n + 1, h, .ref a =>
    match h.get a with
    | none => none
    | some fs =>
      match reachFsWith (reach n h) fs with
      | none => none
      | some L => some (a :: L)

/-- The heap-level store closure of `Store(initial)`: the heap, the
captured `initial` reference, the `state` variable, and the batching
fields `queued` / pending `setTimeout` tasks. -/
structure HStore where
  heap : Heap
  initialRef : JSVal
  root : JSVal
  queued : Bool
  scheduled : Nat
deriving DecidableEq

/-- `notify()` (the flush request): schedule one task unless one is
already pending. -/
def HStore.notify (s : HStore) : HStore :=
  if s.queued then s else { s with queued := true, scheduled := s.scheduled + 1 }

/-- `Store(initial)` construction: `state = _.cloneDeep(initial)`; the
closure retains the caller's `initial` reference itself. -/
def HStore.construct (n : Nat) (h : Heap) (initial : JSVal) : Option HStore :=
  match cloneDeep n h initial with
  | none => none
  | some (h', v) => some ⟨h', initial, v, false, 0⟩

/-- `getTree()`: the live `state` reference, no copy. -/
def HStore.getTree (s : HStore) : JSVal := s.root

/-- `reset()`: `state = _.cloneDeep(initial); notify()`. -/
def HStore.reset (n : Nat) (s : HStore) : Option HStore :=
  match cloneDeep n s.heap s.initialRef with
  | none => none
  | some (h', v) => some (HStore.notify { s with heap := h', root := v })

/-- `set(fork)`: `state = _.assign(state, fork); notify()`.  `_.assign`
mutates the `state` object in place and returns it. -/
def HStore.set (s : HStore) (fork : Fields) : HStore :=
  match s.root with
  | .ref a =>
    match s.heap.get a with
    | some fs =>
      HStore.notify { s with heap := s.heap.setObj a (assignFields fs fork) }
    | none => HStore.notify s
  | .prim _ => HStore.notify s

/-- The callback installed by `useSubtree`, run over the sequence of
flushes it sees: each flush resolves the path against the state of
that moment, compares with strict equality against `oldEncoding`, and
records whether `forceUpdate` fired.  `old` is the value captured at
subscription time. -/
def useSubtreeRun (path : List String) :
    List (Heap × JSVal) → JSVal → JSVal × List Bool
  | [], old => (old, [])
  | (h, v) :: rest, old =>
    let newEncoding := getPath h v path
    if newEncoding = old then
      let r := useSubtreeRun path rest old
      (r.1, false :: r.2)
    else
      let r := useSubtreeRun path rest newEncoding
      (r.1, true :: r.2)

/-- Specification-side firing rule of P3: fire exactly when the
resolved value differs from the one observed at the previous
invocation (or at subscription time for the first flush). -/
def specFireFlags : JSVal → List JSVal → List Bool
  | _, [] => []
  | old, r :: rest => (if r = old then false else true) :: specFireFlags r rest

/-- What a listener function does when invoked: plain callback, a
re-entrant `notify()` call, or raising an exception. -/
inductive LBeh where
  | log
  | notifyB
  | throwB
deriving DecidableEq

/-- The scheduling layer of the store closure over an abstract state
type: `state`, `queued`, the listener `Set` (addresses of function
references, insertion-ordered, duplicate-free), the pending
`setTimeout` tasks, the invocation log, and whether an uncaught
exception escaped a flush. -/
structure SStore (σ : Type) where
  state : σ
  queued : Bool
  scheduled : Nat
  listeners : List Nat
  fired : List (Nat × σ)
  errored : Bool
deriving DecidableEq

/-- `notify()` over the scheduling layer. -/
def SStore.notify {σ : Type} (s : SStore σ) : SStore σ :=
  if s.queued then s else { s with queued := true, scheduled := s.scheduled + 1 }

/-- `subscribe(listener)`: `listeners.add(listener)` — a `Set` keeps
one entry per reference. -/
def SStore.subscribe {σ : Type} (l : Nat) (s : SStore σ) : SStore σ :=
  if l ∈ s.listeners then s else { s with listeners := s.listeners ++ [l] }

/-- The closure returned by `subscribe`: `listeners.delete(listener)`. -/
def SStore.unsub {σ : Type} (l : Nat) (s : SStore σ) : SStore σ :=
  { s with listeners := s.listeners.erase l }

/-- `listeners.forEach(f => f())`: invoke in order; an exception
aborts the remaining iterations and propagates (`true` = threw). -/
def runListeners {σ : Type} (beh : Nat → LBeh) :
    List Nat → SStore σ → SStore σ × Bool
  | [], s => (s, false)
  | l :: rest, s =>
    let s1 : SStore σ := { s with fired := s.fired ++ [(l, s.state)] }
    match beh l with
    | .throwB => (s1, true)
    | .log => runListeners beh rest s1
    | .notifyB => runListeners beh rest (SStore.notify s1)

/-- Run one scheduled flush task:
`listeners.forEach(f => f()); queued = false` — the flag is reset only
after the loop, and not at all when a listener throws. -/
def SStore.runFlush {σ : Type} (beh : Nat → LBeh) (s : SStore σ) : SStore σ :=
  if s.scheduled = 0 then s
  else
    match runListeners beh s.listeners { s with scheduled := s.scheduled - 1 } with
    | (s1, true) => { s1 with errored := true }
    | (s1, false) => { s1 with queued := false }

/-- A synchronous operation issued before yielding to the scheduler:
an in-place state mutation, or a `notify()` call. -/
inductive SOp (σ : Type) where
  | mutate (v : σ)
  | notifyOp
deriving DecidableEq

def applyOps {σ : Type} : List (SOp σ) → SStore σ → SStore σ
  | [], s => s
  | .mutate v :: rest, s => applyOps rest { s with state := v }
  | .notifyOp :: rest, s => applyOps rest (SStore.notify s)

/-- The state left by the last mutation of the sequence (`d` when the
sequence mutates nothing). -/
def lastVal {σ : Type} (d : σ) : List (SOp σ) → σ
  | [] => d
  | .mutate v :: rest => lastVal v rest
  | .notifyOp :: rest => lastVal d rest

/-- An event-loop step: synchronous store calls interleaved with runs
of the scheduled flush task. -/
inductive EStep (σ : Type) where
  | mutate (v : σ)
  | notifyS
  | flushS
  | subscribeS (l : Nat)
  | unsubS (l : Nat)
deriving DecidableEq

def runSteps {σ : Type} (beh : Nat → LBeh) : List (EStep σ) → SStore σ → SStore σ
  | [], s => s
  | .mutate v :: rest, s => runSteps beh rest { s with state := v }
  | .notifyS :: rest, s => runSteps beh rest (SStore.notify s)
  | .flushS :: rest, s => runSteps beh rest (SStore.runFlush beh s)
  | .subscribeS l :: rest, s => runSteps beh rest (SStore.subscribe l s)
  | .unsubS l :: rest, s => runSteps beh rest (SStore.unsub l s)

/-- Does the step subscribe precisely the reference `l`? -/
def isSubscribeOf {σ : Type} (l : Nat) : EStep σ → Bool
  | .subscribeS j => j == l
  | _ => false

/-- What one `cloneDeep` call guarantees: the heap only grows, old
addresses keep their objects, the clone lives entirely in fresh
addresses, and it reads back to the same pure tree as its source. -/
structure ClonePost (n : Nat) (h h' : Heap) (v v' : JSVal) : Prop where
  next_le : h.next ≤ h'.next
  wf : h'.WF
  get_low : ∀ a, a < h.next → h'.get a = h.get a
  refIn : valRefsLt h'.next v'
  fresh : ∃ L, reach n h' v' = some L ∧ ∀ a ∈ L, h.next ≤ a
  deepEq : readBack n h' v' = readBack n h v

/-- The field-list version of `ClonePost`. -/
structure CloneFsPost (n : Nat) (h h1 : Heap) (fs fs1 : Fields) : Prop where
  next_le : h.next ≤ h1.next
  wf : h1.WF
  get_low : ∀ a, a < h.next → h1.get a = h.get a
  refsIn : ∀ q ∈ fs1, valRefsLt h1.next q.2
  fresh : ∃ L, reachFsWith (reach n h1) fs1 = some L ∧ ∀ a ∈ L, h.next ≤ a
  deepEq : readFsWith (readBack n h1) fs1 = readFsWith (readBack n h) fs

/- Concrete instances used by the closed counterexamples and
witnesses. -/

/-- A caller-side heap holding one initial object `{x: 0}` at
address 0. -/
def h0ex : Heap := ⟨[(0, [("x", .prim (.num 0))])], 1⟩

/-- The heap after construction cloned the initial object to
address 1. -/
def h1ex : Heap := ⟨[(1, [("x", .prim (.num 0))]), (0, [("x", .prim (.num 0))])], 2⟩

/-- The store right after `Store(initial)` with `initial = {x: 0}`. -/
def st1ex : HStore := ⟨h1ex, .ref 0, .ref 1, false, 0⟩

/-- The heap after the caller mutated their own initial object to
`{x: 1}`. -/
def h2ex : Heap := h1ex.setObj 0 [("x", .prim (.num 1))]

/-- The store as seen after that caller-side mutation. -/
def st2ex : HStore := { st1ex with heap := h2ex }

/-- The heap after `reset()` cloned the (mutated) initial object to
address 2. -/
def h3ex : Heap :=
  ⟨[(2, [("x", .prim (.num 1))]), (1, [("x", .prim (.num 0))]),
    (0, [("x", .prim (.num 1))])], 3⟩

/-- The store after that `reset()`. -/
def st3ex : HStore := ⟨h3ex, .ref 0, .ref 2, true, 1⟩

/-- A quiescent scheduling-layer store with one registered listener. -/
def st0ex : SStore Nat := ⟨0, false, 0, [0], [], false⟩

/-- A quiescent scheduling-layer store with no listeners. -/
def stEmptyEx : SStore Nat := ⟨0, false, 0, [], [], false⟩

/-- A quiescent scheduling-layer store with two registered
listeners. -/
def st01ex : SStore Nat := ⟨0, false, 0, [0, 1], [], false⟩

/-- A store with a flush already scheduled and two listeners. -/
def stSchedEx : SStore Nat := ⟨0, true, 1, [0, 1], [], false⟩

/-- Every listener re-enters `notify()` when invoked. -/
def behNotify : Nat → LBeh := fun _ => .notifyB

/-- Every listener is a plain callback. -/
def behLog : Nat → LBeh := fun _ => .log

/-- Listener 0 throws; all others are plain callbacks. -/
def behThrowFirst : Nat → LBeh := fun l => if l = 0 then .throwB else .log

/-- A fork object for `set`: overwrites `x` with a primitive and adds
`y` holding an object reference. -/
def forkEx : Fields := [("x", .prim (.num 2)), ("y", .ref 0)]

/-- The store `reset()` produces from `st1ex` (fresh copy of the
initial object at address 2, flush scheduled). -/
def stResetEx : HStore :=
  ⟨⟨[(2, [("x", .prim (.num 0))]), (1, [("x", .prim (.num 0))]),
     (0, [("x", .prim (.num 0))])], 3⟩, .ref 0, .ref 2, true, 1⟩

/-! ### Scheduling-layer lemmas -/

theorem SStore.notify_state {σ : Type} (s : SStore σ) : s.notify.state = s.state := by
  unfold SStore.notify; split <;> rfl

theorem SStore.notify_listeners {σ : Type} (s : SStore σ) :
    s.notify.listeners = s.listeners := by
  unfold SStore.notify; split <;> rfl

theorem SStore.notify_fired {σ : Type} (s : SStore σ) : s.notify.fired = s.fired := by
  unfold SStore.notify; split <;> rfl

theorem SStore.notify_of_queued {σ : Type} (s : SStore σ) (hq : s.queued = true) :
    s.notify = s := by
  unfold SStore.notify; rw [hq]; rfl

/-- While the pending-flush flag is set, `forEach` over non-throwing
listeners only appends invocation records: re-entrant `notify()` calls
are no-ops. -/
theorem runListeners_noThrow {σ : Type} (beh : Nat → LBeh) :
    ∀ (L : List Nat) (s : SStore σ), s.queued = true →
      (∀ l ∈ L, beh l ≠ .throwB) →
      runListeners beh L s =
        ({ s with fired := s.fired ++ L.map (fun l => (l, s.state)) }, false) := by
  intro L
  induction L with
  | nil => intro s hq hb; simp [runListeners]
  | cons l rest ih =>
    intro s hq hb
    have hl : beh l ≠ .throwB := hb l (List.mem_cons_self l rest)
    have hrest : ∀ x ∈ rest, beh x ≠ .throwB :=
      fun x hx => hb x (List.mem_cons_of_mem l hx)
    cases hbl : beh l with
    | throwB => exact absurd hbl hl
    | log =>
      rw [runListeners, hbl]
      rw [ih { s with fired := s.fired ++ [(l, s.state)] } hq hrest]
      simp
    | notifyB =>
      rw [runListeners, hbl]
      rw [SStore.notify_of_queued { s with fired := s.fired ++ [(l, s.state)] } hq]
      rw [ih { s with fired := s.fired ++ [(l, s.state)] } hq hrest]
      simp

/-- `forEach` up to and including a throwing listener: the invocations
stop there and the exception propagates. -/
theorem runListeners_throw {σ : Type} (beh : Nat → LBeh) :
    ∀ (pre : List Nat) (t : Nat) (post : List Nat) (s : SStore σ),
      s.queued = true → (∀ l ∈ pre, beh l ≠ .throwB) → beh t = .throwB →
      runListeners beh (pre ++ t :: post) s =
        ({ s with fired := s.fired ++ (pre ++ [t]).map (fun l => (l, s.state)) }, true) := by
  intro pre
  induction pre with
  | nil =>
    intro t post s hq hpre ht
    rw [List.nil_append, runListeners, ht]
    simp
  | cons l rest ih =>
    intro t post s hq hpre ht
    have hl : beh l ≠ .throwB := hpre l (List.mem_cons_self l rest)
    have hrest : ∀ x ∈ rest, beh x ≠ .throwB :=
      fun x hx => hpre x (List.mem_cons_of_mem l hx)
    cases hbl : beh l with
    | throwB => exact absurd hbl hl
    | log =>
      rw [List.cons_append, runListeners, hbl]
      rw [ih t post { s with fired := s.fired ++ [(l, s.state)] } hq hrest ht]
      simp
    | notifyB =>
      rw [List.cons_append, runListeners, hbl]
      rw [SStore.notify_of_queued { s with fired := s.fired ++ [(l, s.state)] } hq]
      rw [ih t post { s with fired := s.fired ++ [(l, s.state)] } hq hrest ht]
      simp

/-- A flush whose listeners all return normally: every listener is
invoked once against the current state, then the flag is cleared. -/
theorem runFlush_noThrow {σ : Type} (beh : Nat → LBeh) (s : SStore σ)
    (hq : s.queued = true) (hs : s.scheduled ≠ 0)
    (hb : ∀ l ∈ s.listeners, beh l ≠ .throwB) :
    s.runFlush beh =
      { s with scheduled := s.scheduled - 1, queued := false,
               fired := s.fired ++ s.listeners.map (fun l => (l, s.state)) } := by
  unfold SStore.runFlush
  rw [if_neg hs]
  rw [runListeners_noThrow beh s.listeners { s with scheduled := s.scheduled - 1 } hq hb]

/-- Claim C1 (counterexample): one listener that calls `notify()`
during the flush.  The claim predicts that the re-entrant signal
schedules a new flush; in the code `queued` is still `true` inside the
`forEach`, so the call is a no-op, and after the task no flush is
scheduled — the signal is swallowed. -/
theorem runFlush_swallows_reentrant_notify :
    ((SStore.notify st0ex).runFlush behNotify).fired = [(0, 0)] ∧
    ((SStore.notify st0ex).runFlush behNotify).scheduled = 0 ∧
    ((SStore.notify st0ex).runFlush behNotify).scheduled ≠ 1 ∧
    ((SStore.notify st0ex).runFlush behNotify).queued = false := by decide

/-- Claim C1 (amended): the scheduled flush task clears the
pending-flush flag only after invoking the listeners, so a
`requestFlush` (`update`/`notify`) issued by a listener during the
flush finds the flag still set and is a no-op: no new flush is
scheduled, and the flag ends up cleared. -/
theorem runFlush_clears_flag_after_listeners {σ : Type} (beh : Nat → LBeh)
    (s : SStore σ) (hq : s.queued = true) (hs : s.scheduled ≠ 0)
    (hb : ∀ l ∈ s.listeners, beh l ≠ .throwB) :
    (s.runFlush beh).scheduled = s.scheduled - 1 ∧
    (s.runFlush beh).queued = false ∧
    (s.runFlush beh).fired = s.fired ++ s.listeners.map (fun l => (l, s.state)) := by
  rw [runFlush_noThrow beh s hq hs hb]
  exact ⟨rfl, rfl, rfl⟩

/-- Concrete instance of `runFlush_clears_flag_after_listeners`: both
listeners re-enter `notify()`, yet the task leaves no flush
scheduled. -/
theorem runFlush_clears_flag_after_listeners_witness :
    (stSchedEx.runFlush behNotify).scheduled = stSchedEx.scheduled - 1 ∧
    (stSchedEx.runFlush behNotify).queued = false ∧
    (stSchedEx.runFlush behNotify).fired =
      stSchedEx.fired ++ stSchedEx.listeners.map (fun l => (l, stSchedEx.state)) :=
  runFlush_clears_flag_after_listeners behNotify stSchedEx rfl (by decide) (by decide)

/-- Claim C2 (counterexample): listener 0 throws, listener 1 is a
plain callback.  The claim predicts listener 1 still runs and the
pending-flush flag is cleared; in the code the exception aborts the
`forEach`, so listener 1 never fires and `queued` stays `true`. -/
theorem runFlush_throw_skips_rest :
    ((SStore.notify st01ex).runFlush behThrowFirst).fired = [(0, 0)] ∧
    (1, 0) ∉ ((SStore.notify st01ex).runFlush behThrowFirst).fired ∧
    ((SStore.notify st01ex).runFlush behThrowFirst).queued = true ∧
    ((SStore.notify st01ex).runFlush behThrowFirst).errored = true := by decide

/-- Claim C2 (amended): an exception raised by a listener during a
flush aborts the flush — the listeners after it are not invoked, the
exception escapes the task, and the pending-flush flag is left set
(never cleared). -/
theorem runFlush_listener_throw_aborts {σ : Type} (beh : Nat → LBeh)
    (s : SStore σ) (pre post : List Nat) (t : Nat)
    (hq : s.queued = true) (hs : s.scheduled ≠ 0)
    (hl : s.listeners = pre ++ t :: post)
    (hpre : ∀ l ∈ pre, beh l ≠ .throwB) (ht : beh t = .throwB) :
    (s.runFlush beh).fired = s.fired ++ (pre ++ [t]).map (fun l => (l, s.state)) ∧
    (s.runFlush beh).queued = true ∧
    (s.runFlush beh).errored = true ∧
    (s.runFlush beh).scheduled = s.scheduled - 1 := by
  unfold SStore.runFlush
  rw [if_neg hs]
  have h0 :=
    runListeners_throw beh pre t post { s with scheduled := s.scheduled - 1 } hq hpre ht
  rw [hl] at h0
  rw [hl, h0]
  exact ⟨rfl, hq, rfl, rfl⟩

/-- Concrete instance of `runFlush_listener_throw_aborts`: listener 0
throws first; listener 1 is skipped and the flag stays set. -/
theorem runFlush_listener_throw_aborts_witness :
    (stSchedEx.runFlush behThrowFirst).fired =
      stSchedEx.fired ++ ([] ++ [0]).map (fun l => (l, stSchedEx.state)) ∧
    (stSchedEx.runFlush behThrowFirst).queued = true ∧
    (stSchedEx.runFlush behThrowFirst).errored = true ∧
    (stSchedEx.runFlush behThrowFirst).scheduled = stSchedEx.scheduled - 1 :=
  runFlush_listener_throw_aborts behThrowFirst stSchedEx [] [1] 0 rfl (by decide)
    rfl (by decide) (by decide)

/-- Synchronous operations never touch the registry, the invocation
log, or the meaning of the final state. -/
theorem applyOps_basic {σ : Type} :
    ∀ (ops : List (SOp σ)) (s : SStore σ),
      (applyOps ops s).listeners = s.listeners ∧
      (applyOps ops s).fired = s.fired ∧
      (applyOps ops s).state = lastVal s.state ops := by
  intro ops
  induction ops with
  | nil => intro s; exact ⟨rfl, rfl, rfl⟩
  | cons op rest ih =>
    intro s
    cases op with
    | mutate v =>
      obtain ⟨h1, h2, h3⟩ := ih { s with state := v }
      exact ⟨h1, h2, h3⟩
    | notifyOp =>
      obtain ⟨h1, h2, h3⟩ := ih (SStore.notify s)
      refine ⟨?_, ?_, ?_⟩
      · rw [applyOps, h1, SStore.notify_listeners]
      · rw [applyOps, h2, SStore.notify_fired]
      · rw [applyOps, h3, SStore.notify_state, lastVal]

/-- Once a flush is pending, further synchronous operations leave the
flag and the task count untouched. -/
theorem applyOps_stable {σ : Type} :
    ∀ (ops : List (SOp σ)) (s : SStore σ), s.queued = true →
      (applyOps ops s).queued = true ∧
      (applyOps ops s).scheduled = s.scheduled := by
  intro ops
  induction ops with
  | nil => intro s hq; exact ⟨hq, rfl⟩
  | cons op rest ih =>
    intro s hq
    cases op with
    | mutate v => exact ih { s with state := v } hq
    | notifyOp =>
      rw [applyOps, SStore.notify_of_queued s hq]
      exact ih s hq

/-- From a quiescent store, a synchronous sequence containing at least
one `notify()` schedules exactly one flush task. -/
theorem applyOps_sched {σ : Type} :
    ∀ (ops : List (SOp σ)) (s : SStore σ),
      s.queued = false → s.scheduled = 0 → SOp.notifyOp ∈ ops →
      (applyOps ops s).queued = true ∧ (applyOps ops s).scheduled = 1 := by
  intro ops
  induction ops with
  | nil => intro s _ _ hmem; exact absurd hmem (List.not_mem_nil _)
  | cons op rest ih =>
    intro s hq hs hmem
    cases op with
    | mutate v =>
      have hmem' : SOp.notifyOp ∈ rest := by
        cases List.mem_cons.mp hmem with
        | inl h => exact absurd h (by simp)
        | inr h => exact h
      exact ih { s with state := v } hq hs hmem'
    | notifyOp =>
      rw [applyOps]
      have hn : SStore.notify s =
          { s with queued := true, scheduled := s.scheduled + 1 } := by
        unfold SStore.notify; rw [hq]; rfl
      rw [hn, hs]
      have := applyOps_stable rest
        { s with queued := true, scheduled := 0 + 1 } rfl
      simpa using this

/-- Claim C3: for every sequence of synchronous mutations and
`requestFlush` (`update`/`notify`) calls containing at least one
flush request, issued from a quiescent store before yielding to the
scheduler, exactly one flush task is scheduled; running it invokes
every registered listener once against the state left by the last
mutation, and afterwards no flush remains scheduled. -/
theorem notify_coalesces_single_flush {σ : Type} (beh : Nat → LBeh)
    (ops : List (SOp σ)) (s : SStore σ)
    (hq : s.queued = false) (hs : s.scheduled = 0)
    (hmem : SOp.notifyOp ∈ ops)
    (hb : ∀ l ∈ s.listeners, beh l = .log) :
    (applyOps ops s).scheduled = 1 ∧
    (applyOps ops s).state = lastVal s.state ops ∧
    ((applyOps ops s).runFlush beh).fired =
      s.fired ++ s.listeners.map (fun l => (l, lastVal s.state ops)) ∧
    ((applyOps ops s).runFlush beh).scheduled = 0 ∧
    ((applyOps ops s).runFlush beh).queued = false := by
  obtain ⟨hL, hF, hS⟩ := applyOps_basic ops s
  obtain ⟨hq1, hs1⟩ := applyOps_sched ops s hq hs hmem
  have hb1 : ∀ l ∈ (applyOps ops s).listeners, beh l ≠ .throwB := by
    intro l hl
    rw [hL] at hl
    rw [hb l hl]
    intro hcon
    exact LBeh.noConfusion hcon
  have hrun := runFlush_noThrow beh (applyOps ops s) hq1 (by rw [hs1]; exact one_ne_zero) hb1
  refine ⟨hs1, hS, ?_, ?_, ?_⟩
  · rw [hrun]
    show (applyOps ops s).fired ++ _ = _
    rw [hF, hL, hS]
  · rw [hrun]
    show (applyOps ops s).scheduled - 1 = 0
    rw [hs1]
  · rw [hrun]

/-- Concrete instance of `notify_coalesces_single_flush`: two
mutations and two flush requests coalesce into one flush that
observes the final state `7`. -/
theorem notify_coalesces_single_flush_witness :
    (applyOps [SOp.mutate 5, SOp.notifyOp, SOp.mutate 7, SOp.notifyOp] st0ex).scheduled = 1 ∧
    (applyOps [SOp.mutate 5, SOp.notifyOp, SOp.mutate 7, SOp.notifyOp] st0ex).state =
      lastVal st0ex.state [SOp.mutate 5, SOp.notifyOp, SOp.mutate 7, SOp.notifyOp] ∧
    ((applyOps [SOp.mutate 5, SOp.notifyOp, SOp.mutate 7, SOp.notifyOp] st0ex).runFlush behLog).fired =
      st0ex.fired ++ st0ex.listeners.map
        (fun l => (l, lastVal st0ex.state [SOp.mutate 5, SOp.notifyOp, SOp.mutate 7, SOp.notifyOp])) ∧
    ((applyOps [SOp.mutate 5, SOp.notifyOp, SOp.mutate 7, SOp.notifyOp] st0ex).runFlush behLog).scheduled = 0 ∧
    ((applyOps [SOp.mutate 5, SOp.notifyOp, SOp.mutate 7, SOp.notifyOp] st0ex).runFlush behLog).queued = false :=
  notify_coalesces_single_flush behLog
    [SOp.mutate 5, SOp.notifyOp, SOp.mutate 7, SOp.notifyOp] st0ex rfl rfl
    (by decide) (by decide)

/-- Adding an already-present reference to the listener `Set` is a
no-op. -/
theorem subscribe_of_mem {σ : Type} (l : Nat) (s : SStore σ)
    (hmem : l ∈ s.listeners) : SStore.subscribe l s = s := by
  unfold SStore.subscribe
  rw [if_pos hmem]

theorem subscribe_mem {σ : Type} (l : Nat) (s : SStore σ) :
    l ∈ (SStore.subscribe l s).listeners := by
  unfold SStore.subscribe
  split
  · assumption
  · simp

theorem subscribe_nodup {σ : Type} (l : Nat) (s : SStore σ)
    (hnd : s.listeners.Nodup) : (SStore.subscribe l s).listeners.Nodup := by
  unfold SStore.subscribe
  split
  · exact hnd
  · next h => simp [List.nodup_append, hnd, h]

/-- Claim C4 (counterexample): registering the same function
reference twice.  The claim predicts two independent registry
entries; the `Set` keeps one. -/
theorem subscribe_same_ref_single_entry :
    (SStore.subscribe 0 (SStore.subscribe 0 stEmptyEx)).listeners = [0] ∧
    (SStore.subscribe 0 (SStore.subscribe 0 stEmptyEx)).listeners.length = 1 ∧
    (SStore.subscribe 0 (SStore.subscribe 0 stEmptyEx)).listeners.length ≠ 2 := by decide

/-- Claim C4 (amended): `subscribe` stores listeners in a `Set` keyed
by function reference, so subscribing the same reference twice leaves
a single registry entry; each returned unsubscribe function deletes
that reference, so the first call removes the entry and a repeated
call has no further effect. -/
theorem subscribe_set_dedup {σ : Type} (s : SStore σ) (l : Nat)
    (hnd : s.listeners.Nodup) :
    SStore.subscribe l (SStore.subscribe l s) = SStore.subscribe l s ∧
    l ∉ (SStore.unsub l (SStore.subscribe l s)).listeners ∧
    SStore.unsub l (SStore.unsub l (SStore.subscribe l s)) =
      SStore.unsub l (SStore.subscribe l s) := by
  have hmem := subscribe_mem l s
  have hnd2 := subscribe_nodup l s hnd
  have hout : l ∉ (SStore.unsub l (SStore.subscribe l s)).listeners := by
    intro hcon
    rw [SStore.unsub] at hcon
    exact ((hnd2.mem_erase_iff).mp hcon).1 rfl
  refine ⟨subscribe_of_mem l _ hmem, hout, ?_⟩
  show ({ SStore.unsub l (SStore.subscribe l s) with
      listeners := (SStore.unsub l (SStore.subscribe l s)).listeners.erase l } : SStore σ) = _
  rw [List.erase_of_not_mem hout]

/-- Concrete instance of `subscribe_set_dedup`. -/
theorem subscribe_set_dedup_witness :
    SStore.subscribe 0 (SStore.subscribe 0 st01ex) = SStore.subscribe 0 st01ex ∧
    0 ∉ (SStore.unsub 0 (SStore.subscribe 0 st01ex)).listeners ∧
    SStore.unsub 0 (SStore.unsub 0 (SStore.subscribe 0 st01ex)) =
      SStore.unsub 0 (SStore.subscribe 0 st01ex) :=
  subscribe_set_dedup st01ex 0 (by decide)

theorem runListeners_listeners {σ : Type} (beh : Nat → LBeh) :
    ∀ (L : List Nat) (s : SStore σ),
      (runListeners beh L s).1.listeners = s.listeners := by
  intro L
  induction L with
  | nil => intro s; rfl
  | cons l rest ih =>
    intro s
    rw [runListeners]
    cases beh l with
    | throwB => rfl
    | log => rw [ih]
    | notifyB => rw [ih, SStore.notify_listeners]

/-- `forEach` only appends invocation records, and only for references
present in the iterated list. -/
theorem runListeners_fired_sub {σ : Type} (beh : Nat → LBeh) :
    ∀ (L : List Nat) (s : SStore σ),
      ∃ t, (runListeners beh L s).1.fired = s.fired ++ t ∧ ∀ x ∈ t, x.1 ∈ L := by
  intro L
  induction L with
  | nil => intro s; exact ⟨[], by simp [runListeners], by simp⟩
  | cons l rest ih =>
    intro s
    rw [runListeners]
    cases beh l with
    | throwB =>
      refine ⟨[(l, s.state)], rfl, ?_⟩
      intro x hx
      rw [List.mem_singleton] at hx
      rw [hx]
      exact List.mem_cons_self l rest
    | log =>
      obtain ⟨t, ht, hmem⟩ := ih { s with fired := s.fired ++ [(l, s.state)] }
      refine ⟨(l, s.state) :: t, ?_, ?_⟩
      · rw [ht]
        simp
      · intro x hx
        cases List.mem_cons.mp hx with
        | inl h => rw [h]; exact List.mem_cons_self l rest
        | inr h => exact List.mem_cons_of_mem l (hmem x h)
    | notifyB =>
      obtain ⟨t, ht, hmem⟩ :=
        ih (SStore.notify { s with fired := s.fired ++ [(l, s.state)] })
      refine ⟨(l, s.state) :: t, ?_, ?_⟩
      · rw [ht, SStore.notify_fired]
        simp
      · intro x hx
        cases List.mem_cons.mp hx with
        | inl h => rw [h]; exact List.mem_cons_self l rest
        | inr h => exact List.mem_cons_of_mem l (hmem x h)

theorem runFlush_listeners {σ : Type} (beh : Nat → LBeh) (s : SStore σ) :
    (s.runFlush beh).listeners = s.listeners := by
  unfold SStore.runFlush
  split
  · rfl
  · have h := runListeners_listeners beh s.listeners { s with scheduled := s.scheduled - 1 }
    split
    · next s1 heq =>
      have : s1.listeners = s.listeners := by
        have := congrArg Prod.fst heq
        rw [this] at h
        exact h
      exact this
    · next s1 heq =>
      have : s1.listeners = s.listeners := by
        have := congrArg Prod.fst heq
        rw [this] at h
        exact h
      exact this

theorem runFlush_fired_sub {σ : Type} (beh : Nat → LBeh) (s : SStore σ) :
    ∃ t, (s.runFlush beh).fired = s.fired ++ t ∧ ∀ x ∈ t, x.1 ∈ s.listeners := by
  unfold SStore.runFlush
  split
  · exact ⟨[], by simp, by simp⟩
  · have h := runListeners_fired_sub beh s.listeners { s with scheduled := s.scheduled - 1 }
    split
    · next s1 heq =>
      obtain ⟨t, ht, hm⟩ := h
      have h1 := congrArg Prod.fst heq
      rw [h1] at ht
      exact ⟨t, ht, hm⟩
    · next s1 heq =>
      obtain ⟨t, ht, hm⟩ := h
      have h1 := congrArg Prod.fst heq
      rw [h1] at ht
      exact ⟨t, ht, hm⟩

/-- After a reference has left the registry, no later event-loop
activity (that does not re-subscribe it) ever invokes it, and it
never re-enters the registry. -/
theorem runSteps_no_fire {σ : Type} (beh : Nat → LBeh) (l : Nat) :
    ∀ (steps : List (EStep σ)) (s : SStore σ), l ∉ s.listeners →
      (∀ st ∈ steps, isSubscribeOf l st = false) →
      l ∉ (runSteps beh steps s).listeners ∧
      ∃ t, (runSteps beh steps s).fired = s.fired ++ t ∧ ∀ x ∈ t, x.1 ≠ l := by
  intro steps
  induction steps with
  | nil => intro s hmem _; exact ⟨hmem, [], by simp [runSteps], by simp⟩
  | cons step rest ih =>
    intro s hmem hsteps
    have hrest : ∀ st ∈ rest, isSubscribeOf l st = false :=
      fun st hst => hsteps st (List.mem_cons_of_mem step hst)
    cases step with
    | mutate v =>
      obtain ⟨h1, t, ht, hn⟩ := ih { s with state := v } hmem hrest
      exact ⟨h1, t, ht, hn⟩
    | notifyS =>
      have hm2 : l ∉ (SStore.notify s).listeners := by
        rw [SStore.notify_listeners]; exact hmem
      obtain ⟨h1, t, ht, hn⟩ := ih (SStore.notify s) hm2 hrest
      refine ⟨h1, t, ?_, hn⟩
      rw [runSteps, ht, SStore.notify_fired]
    | flushS =>
      have hm2 : l ∉ (SStore.runFlush beh s).listeners := by
        rw [runFlush_listeners]; exact hmem
      obtain ⟨h1, t1, ht1, hn1⟩ := ih (SStore.runFlush beh s) hm2 hrest
      obtain ⟨t0, ht0, hm0⟩ := runFlush_fired_sub beh s
      refine ⟨h1, t0 ++ t1, ?_, ?_⟩
      · rw [runSteps, ht1, ht0, List.append_assoc]
      · intro x hx
        cases List.mem_append.mp hx with
        | inl h =>
          intro hcon
          apply hmem
          rw [← hcon]
          exact hm0 x h
        | inr h => exact hn1 x h
    | subscribeS j =>
      have hj : j ≠ l := by
        have := hsteps (EStep.subscribeS j) (List.mem_cons_self _ _)
        rw [isSubscribeOf] at this
        exact fun hcon => by rw [hcon] at this; simp at this
      have hm2 : l ∉ (SStore.subscribe j s).listeners := by
        unfold SStore.subscribe
        split
        · exact hmem
        · intro hcon
          cases List.mem_append.mp hcon with
          | inl h => exact hmem h
          | inr h => exact hj (List.mem_singleton.mp h).symm
      obtain ⟨h1, t, ht, hn⟩ := ih (SStore.subscribe j s) hm2 hrest
      refine ⟨h1, t, ?_, hn⟩
      have hf : (SStore.subscribe j s).fired = s.fired := by
        unfold SStore.subscribe; split <;> rfl
      rw [runSteps, ht, hf]
    | unsubS j =>
      have hm2 : l ∉ (SStore.unsub j s).listeners := by
        intro hcon
        exact hmem (List.mem_of_mem_erase hcon)
      obtain ⟨h1, t, ht, hn⟩ := ih (SStore.unsub j s) hm2 hrest
      exact ⟨h1, t, ht, hn⟩

/-- Claim C8: after the unsubscribe closure returned by `subscribe`
runs (`listeners.delete(listener)`), that listener is never invoked on
any later flush — including a flush scheduled before the
unsubscription but not yet run, since the task iterates the live
`Set` — and running the closure again has no further effect. -/
theorem unsubscribe_stops_future_flushes {σ : Type} (beh : Nat → LBeh)
    (s : SStore σ) (l : Nat) (steps : List (EStep σ))
    (hnd : s.listeners.Nodup)
    (hsteps : ∀ st ∈ steps, isSubscribeOf l st = false) :
    (∃ t, (runSteps beh steps (SStore.unsub l s)).fired =
        (SStore.unsub l s).fired ++ t ∧ ∀ x ∈ t, x.1 ≠ l) ∧
    SStore.unsub l (SStore.unsub l s) = SStore.unsub l s := by
  have hout : l ∉ (SStore.unsub l s).listeners := by
    intro hcon
    rw [SStore.unsub] at hcon
    exact ((hnd.mem_erase_iff).mp hcon).1 rfl
  refine ⟨(runSteps_no_fire beh l steps (SStore.unsub l s) hout hsteps).2, ?_⟩
  show ({ SStore.unsub l s with
      listeners := (SStore.unsub l s).listeners.erase l } : SStore σ) = _
  rw [List.erase_of_not_mem hout]

/-- Concrete instance of `unsubscribe_stops_future_flushes`: a flush
is already scheduled when listener 1 unsubscribes; the flush then
fires only listener 0. -/
theorem unsubscribe_stops_future_flushes_witness :
    (∃ t, (runSteps behLog [EStep.flushS] (SStore.unsub 1 stSchedEx)).fired =
        (SStore.unsub 1 stSchedEx).fired ++ t ∧ ∀ x ∈ t, x.1 ≠ 1) ∧
    SStore.unsub 1 (SStore.unsub 1 stSchedEx) = SStore.unsub 1 stSchedEx :=
  unsubscribe_stops_future_flushes behLog stSchedEx 1 [EStep.flushS]
    (by decide) (by decide)

/-! ### Path-scoped subscription (useSubtree) -/

/-- Claim C6: the callback installed by `useSubtree` invokes its
`forceUpdate` on a flush exactly when the value resolved at its path
differs — under strict equality, i.e. identity for objects and value
equality for primitives — from the value observed at its previous
invocation (at subscription time for the first flush).  The firing
pattern of `useSubtreeRun` coincides with the specification-side rule
`specFireFlags` on every flush sequence. -/
theorem useSubtree_fires_iff_changed (path : List String)
    (snaps : List (Heap × JSVal)) (old : JSVal) :
    (useSubtreeRun path snaps old).2 =
      specFireFlags old (snaps.map (fun p => getPath p.1 p.2 path)) := by
  induction snaps generalizing old with
  | nil => rfl
  | cons p rest ih =>
    obtain ⟨h, v⟩ := p
    rw [List.map_cons, useSubtreeRun, specFireFlags]
    by_cases he : getPath h v path = old
    · rw [if_pos he, if_pos he]
      show false :: (useSubtreeRun path rest old).2 =
        false :: specFireFlags (getPath h v path)
          (List.map (fun p => getPath p.1 p.2 path) rest)
      rw [he, ih old]
    · rw [if_neg he, if_neg he]
      show true :: (useSubtreeRun path rest (getPath h v path)).2 =
        true :: specFireFlags (getPath h v path)
          (List.map (fun p => getPath p.1 p.2 path) rest)
      rw [ih (getPath h v path)]

/-! ### Heap lemmas -/

theorem valRefsLt_mono {M N : Nat} (hMN : M ≤ N) :
    ∀ {v : JSVal}, valRefsLt M v → valRefsLt N v := by
  intro v hv
  cases v with
  | prim p => exact True.intro
  | ref a => exact lt_of_lt_of_le hv hMN

theorem findFs_some_mem :
    ∀ (l : List (Nat × Fields)) (b : Nat) (fs : Fields),
      findFs l b = some fs → (b, fs) ∈ l := by
  intro l
  induction l with
  | nil => intro b fs h; exact absurd h (by simp [findFs])
  | cons p rest ih =>
    intro b fs h
    obtain ⟨a, g⟩ := p
    rw [findFs] at h
    by_cases hab : a = b
    · rw [if_pos hab] at h
      injection h with h
      rw [← hab, ← h]
      exact List.mem_cons_self _ _
    · rw [if_neg hab] at h
      exact List.mem_cons_of_mem _ (ih b fs h)

theorem wf_get_lt {h : Heap} (hwf : h.WF) {a : Nat} {fs : Fields}
    (hg : h.get a = some fs) : a < h.next :=
  (hwf (a, fs) (findFs_some_mem h.objs a fs hg)).1

theorem wf_get_refs {h : Heap} (hwf : h.WF) {a : Nat} {fs : Fields}
    (hg : h.get a = some fs) : ∀ q ∈ fs, valRefsLt h.next q.2 :=
  (hwf (a, fs) (findFs_some_mem h.objs a fs hg)).2

theorem get_alloc_ne (h : Heap) (fs : Fields) (a : Nat) (ha : a ≠ h.next) :
    (h.alloc fs).1.get a = h.get a := by
  show findFs ((h.next, fs) :: h.objs) a = findFs h.objs a
  rw [findFs, if_neg (fun hc => ha hc.symm)]

theorem get_alloc_self (h : Heap) (fs : Fields) :
    (h.alloc fs).1.get h.next = some fs := by
  show findFs ((h.next, fs) :: h.objs) h.next = some fs
  rw [findFs, if_pos rfl]

theorem findFs_map_setObj :
    ∀ (l : List (Nat × Fields)) (a b : Nat) (fs : Fields), b ≠ a →
      findFs (l.map (fun p => if p.1 = a then (a, fs) else p)) b = findFs l b := by
  intro l
  induction l with
  | nil => intro a b fs _; rfl
  | cons p rest ih =>
    intro a b fs hba
    obtain ⟨c, g⟩ := p
    rw [List.map_cons]
    by_cases hca : c = a
    · rw [if_pos hca, findFs, findFs,
        if_neg (fun hc : a = b => hba hc.symm),
        if_neg (fun hc : c = b => hba (hca ▸ hc).symm)]
      exact ih a b fs hba
    · rw [if_neg hca, findFs, findFs]
      by_cases hcb : c = b
      · rw [if_pos hcb, if_pos hcb]
      · rw [if_neg hcb, if_neg hcb]
        exact ih a b fs hba

theorem get_setObj_ne (h : Heap) (a b : Nat) (fs : Fields) (hba : b ≠ a) :
    (h.setObj a fs).get b = h.get b :=
  findFs_map_setObj h.objs a b fs hba

theorem findFs_map_setObj_self :
    ∀ (l : List (Nat × Fields)) (a : Nat) (fs fs0 : Fields),
      findFs l a = some fs0 →
      findFs (l.map (fun p => if p.1 = a then (a, fs) else p)) a = some fs := by
  intro l
  induction l with
  | nil => intro a fs fs0 h; exact absurd h (by simp [findFs])
  | cons p rest ih =>
    intro a fs fs0 h
    obtain ⟨c, g⟩ := p
    rw [List.map_cons]
    rw [findFs] at h
    by_cases hca : c = a
    · rw [if_pos hca, findFs, if_pos rfl]
    · rw [if_neg hca] at h
      rw [if_neg hca, findFs, if_neg hca]
      exact ih a fs fs0 h

theorem get_setObj_self (h : Heap) (a : Nat) (fs fs0 : Fields)
    (hg : h.get a = some fs0) : (h.setObj a fs).get a = some fs :=
  findFs_map_setObj_self h.objs a fs fs0 hg

theorem setObj_WF (h : Heap) (a : Nat) (fs : Fields) (hwf : h.WF)
    (hfs : ∀ q ∈ fs, valRefsLt h.next q.2) : (h.setObj a fs).WF := by
  intro p hp
  rw [Heap.setObj] at hp
  simp only [List.mem_map] at hp
  obtain ⟨orig, horig, hporig⟩ := hp
  show p.1 < h.next ∧ ∀ q ∈ p.2, valRefsLt h.next q.2
  by_cases hoa : orig.1 = a
  · rw [if_pos hoa] at hporig
    rw [← hporig]
    exact ⟨hoa ▸ (hwf orig horig).1, hfs⟩
  · rw [if_neg hoa] at hporig
    rw [← hporig]
    exact hwf orig horig

theorem alloc_WF (h : Heap) (fs : Fields) (hwf : h.WF)
    (hfs : ∀ q ∈ fs, valRefsLt h.next q.2) : (h.alloc fs).1.WF := by
  intro p hp
  show p.1 < h.next + 1 ∧ ∀ q ∈ p.2, valRefsLt (h.next + 1) q.2
  cases List.mem_cons.mp hp with
  | inl hhead =>
    rw [hhead]
    exact ⟨Nat.lt_succ_self _,
      fun q hq => valRefsLt_mono (Nat.le_succ _) (hfs q hq)⟩
  | inr htail =>
    obtain ⟨h1, h2⟩ := hwf p htail
    exact ⟨Nat.lt_succ_of_lt h1,
      fun q hq => valRefsLt_mono (Nat.le_succ _) (h2 q hq)⟩

/-- One-step unfolding of `reach` at a resolved reference. -/
theorem reach_ref_eq (n : Nat) (h : Heap) (a : Nat) (fs : Fields)
    (hga : h.get a = some fs) :
    reach (n + 1) h (.ref a) =
      match reachFsWith (reach n h) fs with
      | none => none
      | some L => some (a :: L) := by
  rw [reach, hga]

/-- One-step unfolding of `readBack` at a resolved reference. -/
theorem readBack_ref_eq (n : Nat) (h : Heap) (a : Nat) (fs : Fields)
    (hga : h.get a = some fs) :
    readBack (n + 1) h (.ref a) =
      match readFsWith (readBack n h) fs with
      | none => none
      | some ts => some (.node ts) := by
  rw [readBack, hga]

/-- One-step unfolding of `cloneDeep` at a resolved reference. -/
theorem cloneDeep_ref_eq (n : Nat) (h : Heap) (a : Nat) (fs : Fields)
    (hga : h.get a = some fs) :
    cloneDeep (n + 1) h (.ref a) =
      match cloneFsWith (cloneDeep n) h fs with
      | none => none
      | some (h1, fs1) => some ((h1.alloc fs1).1, .ref (h1.alloc fs1).2) := by
  rw [cloneDeep, hga]

/-- Generic transport of per-field reach and read-back along a heap
change that agrees on every reached address. -/
theorem reachFsWith_stab (rc1 rc2 : JSVal → Option (List Nat))
    (rd1 rd2 : JSVal → Option JTree) (P : Nat → Prop)
    (ihv : ∀ v L, rc1 v = some L → (∀ a ∈ L, P a) → rc2 v = some L ∧ rd2 v = rd1 v) :
    ∀ (fs : Fields) (L : List Nat),
      reachFsWith rc1 fs = some L → (∀ a ∈ L, P a) →
      reachFsWith rc2 fs = some L ∧ readFsWith rd2 fs = readFsWith rd1 fs := by
  intro fs
  induction fs with
  | nil =>
    intro L h hp
    rw [reachFsWith] at h
    injection h with h
    rw [← h]
    exact ⟨rfl, rfl⟩
  | cons q rest ihfs =>
    intro L h hp
    obtain ⟨k, v⟩ := q
    rw [reachFsWith] at h
    cases h1 : rc1 v with
    | none => rw [h1] at h; exact absurd h (by simp)
    | some L1 =>
      rw [h1] at h
      cases h2 : reachFsWith rc1 rest with
      | none => rw [h2] at h; exact absurd h (by simp)
      | some L2 =>
        rw [h2] at h
        injection h with hL
        rw [← hL] at hp
        obtain ⟨hc1, hd1⟩ :=
          ihv v L1 h1 (fun a ha => hp a (List.mem_append_left _ ha))
        obtain ⟨hc2, hd2⟩ :=
          ihfs L2 h2 (fun a ha => hp a (List.mem_append_right _ ha))
        constructor
        · rw [reachFsWith, hc1, hc2]
          exact congrArg some hL
        · simp only [readFsWith]
          rw [hd1, hd2]

/-- Reach and read-back are stable under any heap change that agrees
on every reached address. -/
theorem reach_stab (n : Nat) :
    ∀ (h1 h2 : Heap) (v : JSVal) (L : List Nat),
      reach n h1 v = some L → (∀ a ∈ L, h2.get a = h1.get a) →
      reach n h2 v = some L ∧ readBack n h2 v = readBack n h1 v := by
  induction n with
  | zero =>
    intro h1 h2 v L hr hag
    cases v with
    | prim p =>
      rw [reach] at hr
      injection hr with hr
      rw [← hr]
      exact ⟨rfl, rfl⟩
    | ref a => exact absurd hr (by rw [reach]; simp)
  | succ n ih =>
    intro h1 h2 v L hr hag
    cases v with
    | prim p =>
      rw [reach] at hr
      injection hr with hr
      rw [← hr]
      exact ⟨rfl, rfl⟩
    | ref a =>
      cases hga : h1.get a with
      | none => rw [reach, hga] at hr; exact absurd hr (by simp)
      | some fs =>
        rw [reach_ref_eq n h1 a fs hga] at hr
        cases hfs : reachFsWith (reach n h1) fs with
        | none => rw [hfs] at hr; exact absurd hr (by simp)
        | some L0 =>
          rw [hfs] at hr
          injection hr with hr
          have haL : a ∈ L := by rw [← hr]; exact List.mem_cons_self _ _
          have hga2 : h2.get a = some fs := by rw [hag a haL, hga]
          have hL0 : ∀ b ∈ L0, h2.get b = h1.get b := by
            intro b hb
            exact hag b (by rw [← hr]; exact List.mem_cons_of_mem _ hb)
          obtain ⟨hc, hd⟩ :=
            reachFsWith_stab (reach n h1) (reach n h2) (readBack n h1) (readBack n h2)
              (fun b => h2.get b = h1.get b)
              (fun w Lw hw hpw => ih h1 h2 w Lw hw hpw) fs L0 hfs hL0
          constructor
          · rw [reach_ref_eq n h2 a fs hga2, hc]
            exact congrArg some hr
          · rw [readBack_ref_eq n h2 a fs hga2, readBack_ref_eq n h1 a fs hga, hd]

/-- Generic membership principle for per-field reach lists. -/
theorem reachFsWith_mem (rc : JSVal → Option (List Nat)) (Q : Nat → Prop)
    (ihv : ∀ v L, rc v = some L → ∀ a ∈ L, Q a) :
    ∀ (fs : Fields) (L : List Nat), reachFsWith rc fs = some L → ∀ a ∈ L, Q a := by
  intro fs
  induction fs with
  | nil =>
    intro L h a ha
    rw [reachFsWith] at h
    injection h with h
    rw [← h] at ha
    exact absurd ha (List.not_mem_nil _)
  | cons q rest ihfs =>
    intro L h a ha
    obtain ⟨k, v⟩ := q
    rw [reachFsWith] at h
    cases h1 : rc v with
    | none => rw [h1] at h; exact absurd h (by simp)
    | some L1 =>
      rw [h1] at h
      cases h2 : reachFsWith rc rest with
      | none => rw [h2] at h; exact absurd h (by simp)
      | some L2 =>
        rw [h2] at h
        injection h with hL
        rw [← hL] at ha
        cases List.mem_append.mp ha with
        | inl hl => exact ihv v L1 h1 a hl
        | inr hr => exact ihfs L2 h2 a hr

/-- Every reached address is an allocated address. -/
theorem reach_mem (n : Nat) :
    ∀ (h : Heap) (v : JSVal) (L : List Nat),
      reach n h v = some L → ∀ a ∈ L, h.get a ≠ none := by
  induction n with
  | zero =>
    intro h v L hr a ha
    cases v with
    | prim p =>
      rw [reach] at hr
      injection hr with hr
      rw [← hr] at ha
      exact absurd ha (List.not_mem_nil _)
    | ref b => exact absurd hr (by rw [reach]; simp)
  | succ n ih =>
    intro h v L hr a ha
    cases v with
    | prim p =>
      rw [reach] at hr
      injection hr with hr
      rw [← hr] at ha
      exact absurd ha (List.not_mem_nil _)
    | ref b =>
      cases hgb : h.get b with
      | none => rw [reach, hgb] at hr; exact absurd hr (by simp)
      | some fs =>
        rw [reach_ref_eq n h b fs hgb] at hr
        cases hfs : reachFsWith (reach n h) fs with
        | none => rw [hfs] at hr; exact absurd hr (by simp)
        | some L0 =>
          rw [hfs] at hr
          injection hr with hr
          rw [← hr] at ha
          cases List.mem_cons.mp ha with
          | inl hab => rw [hab, hgb]; exact fun hc => Option.noConfusion hc
          | inr hmem =>
            exact reachFsWith_mem (reach n h) (fun c => h.get c ≠ none)
              (fun w Lw hw => ih h w Lw hw) fs L0 hfs a hmem

/-- In a well-formed heap, every reached address lies below `next`. -/
theorem reach_lt_next {n : Nat} {h : Heap} (hwf : h.WF) {v : JSVal} {L : List Nat}
    (hr : reach n h v = some L) : ∀ a ∈ L, a < h.next := by
  intro a ha
  have hne := reach_mem n h v L hr a ha
  cases hga : h.get a with
  | none => exact absurd hga hne
  | some fs => exact wf_get_lt hwf hga

theorem readFsWith_congr (rd1 rd2 : JSVal → Option JTree) :
    ∀ (fs : Fields), (∀ q ∈ fs, rd2 q.2 = rd1 q.2) →
      readFsWith rd2 fs = readFsWith rd1 fs := by
  intro fs
  induction fs with
  | nil => intro _; rfl
  | cons q rest ihfs =>
    intro hq
    obtain ⟨k, v⟩ := q
    have hv : rd2 v = rd1 v := hq (k, v) (List.mem_cons_self _ _)
    have hrest : ∀ p ∈ rest, rd2 p.2 = rd1 p.2 :=
      fun p hp => hq p (List.mem_cons_of_mem _ hp)
    simp only [readFsWith]
    rw [hv, ihfs hrest]

/-- Reading back a value whose references all lie below `next` only
consults old addresses: any heap agreeing there reads back equally. -/
theorem readBack_low_stab (n : Nat) :
    ∀ (h h2 : Heap) (v : JSVal), h.WF → valRefsLt h.next v →
      (∀ a, a < h.next → h2.get a = h.get a) →
      readBack n h2 v = readBack n h v := by
  induction n with
  | zero =>
    intro h h2 v _ _ _
    cases v with
    | prim p => rfl
    | ref a => rfl
  | succ n ih =>
    intro h h2 v hwf hv hag
    cases v with
    | prim p => rfl
    | ref a =>
      have ha : a < h.next := hv
      have hga2 : h2.get a = h.get a := hag a ha
      cases hga : h.get a with
      | none => rw [readBack, readBack, hga, hga2, hga]
      | some fs =>
        have hrefs := wf_get_refs hwf hga
        have hcongr := readFsWith_congr (readBack n h) (readBack n h2) fs
          (fun q hq => ih h h2 q.2 hwf (hrefs q hq) hag)
        rw [readBack_ref_eq n h2 a fs (by rw [hga2, hga]),
          readBack_ref_eq n h a fs hga, hcongr]

/-- Field-list version of the `cloneDeep` postcondition, assuming it
for the value cloner at the same fuel. -/
theorem cloneFsWith_post (n : Nat)
    (ihv : ∀ (h : Heap) (v : JSVal) (h' : Heap) (v' : JSVal),
      h.WF → valRefsLt h.next v → cloneDeep n h v = some (h', v') →
      ClonePost n h h' v v') :
    ∀ (fs : Fields) (h h1 : Heap) (fs1 : Fields),
      h.WF → (∀ q ∈ fs, valRefsLt h.next q.2) →
      cloneFsWith (cloneDeep n) h fs = some (h1, fs1) →
      CloneFsPost n h h1 fs fs1 := by
  intro fs
  induction fs with
  | nil =>
    intro h h1 fs1 hwf _ hc
    rw [cloneFsWith] at hc
    injection hc with hc
    injection hc with hh hf
    subst hh; subst hf
    exact ⟨le_refl _, hwf, fun a _ => rfl,
      fun q hq => absurd hq (List.not_mem_nil _), ⟨[], rfl, by simp⟩, rfl⟩
  | cons q rest ihfs =>
    intro h h1 fs1 hwf hvals hc
    obtain ⟨k, v⟩ := q
    rw [cloneFsWith] at hc
    split at hc
    · exact absurd hc (by simp)
    · rename_i hA v1 hcv
      split at hc
      · exact absurd hc (by simp)
      · rename_i h2 fsR hcr
        injection hc with hc
        injection hc with hh hf
        subst hh; subst hf
        have PA := ihv h v hA v1 hwf (hvals (k, v) (List.mem_cons_self _ _)) hcv
        have hvals2 : ∀ p ∈ rest, valRefsLt hA.next p.2 :=
          fun p hp => valRefsLt_mono PA.next_le (hvals p (List.mem_cons_of_mem _ hp))
        have PR := ihfs hA h2 fsR PA.wf hvals2 hcr
        obtain ⟨L1, hL1, hge1⟩ := PA.fresh
        have hagree : ∀ b ∈ L1, h2.get b = hA.get b := by
          intro b hb
          have hlt : b < hA.next := reach_lt_next PA.wf hL1 b hb
          exact PR.get_low b hlt
        obtain ⟨hreach1, hread1⟩ := reach_stab n hA h2 v1 L1 hL1 hagree
        obtain ⟨L2, hL2, hge2⟩ := PR.fresh
        refine ⟨?_, PR.wf, ?_, ?_, ?_, ?_⟩
        · exact le_trans PA.next_le PR.next_le
        · intro a ha
          rw [PR.get_low a (lt_of_lt_of_le ha PA.next_le), PA.get_low a ha]
        · intro p hp
          cases List.mem_cons.mp hp with
          | inl h0 => rw [h0]; exact valRefsLt_mono PR.next_le PA.refIn
          | inr h0 => exact PR.refsIn p h0
        · refine ⟨L1 ++ L2, ?_, ?_⟩
          · rw [reachFsWith, hreach1, hL2]
          · intro b hb
            cases List.mem_append.mp hb with
            | inl h0 => exact hge1 b h0
            | inr h0 => exact le_trans PA.next_le (hge2 b h0)
        · have hreadRest : readFsWith (readBack n hA) rest =
              readFsWith (readBack n h) rest := by
            refine readFsWith_congr (readBack n h) (readBack n hA) rest ?_
            intro p hp
            exact readBack_low_stab n h hA p.2 hwf
              (hvals p (List.mem_cons_of_mem _ hp)) PA.get_low
          simp only [readFsWith]
          rw [hread1, PA.deepEq, PR.deepEq, hreadRest]

/-- The `cloneDeep` postcondition: the heap only grows, old addresses
keep their objects, and the clone is a fresh, structurally equal copy
of its source. -/
theorem cloneDeep_post :
    ∀ (n : Nat) (h : Heap) (v : JSVal) (h' : Heap) (v' : JSVal),
      h.WF → valRefsLt h.next v → cloneDeep n h v = some (h', v') →
      ClonePost n h h' v v' := by
  intro n
  induction n with
  | zero =>
    intro h v h' v' hwf hv hc
    cases v with
    | prim p =>
      rw [cloneDeep] at hc
      injection hc with hc
      injection hc with hh hvv
      subst hh; subst hvv
      exact ⟨le_refl _, hwf, fun a _ => rfl, True.intro, ⟨[], rfl, by simp⟩, rfl⟩
    | ref a => exact absurd hc (by rw [cloneDeep]; simp)
  | succ n ihn =>
    intro h v h' v' hwf hv hc
    cases v with
    | prim p =>
      rw [cloneDeep] at hc
      injection hc with hc
      injection hc with hh hvv
      subst hh; subst hvv
      exact ⟨le_refl _, hwf, fun a _ => rfl, True.intro, ⟨[], rfl, by simp⟩, rfl⟩
    | ref a =>
      cases hga : h.get a with
      | none => rw [cloneDeep, hga] at hc; exact absurd hc (by simp)
      | some fs =>
        rw [cloneDeep_ref_eq n h a fs hga] at hc
        cases hcfs : cloneFsWith (cloneDeep n) h fs with
        | none => rw [hcfs] at hc; exact absurd hc (by simp)
        | some r =>
          obtain ⟨h1, fs1⟩ := r
          rw [hcfs] at hc
          injection hc with hc
          injection hc with hh hvv
          subst hh; subst hvv
          have PF := cloneFsWith_post n ihn fs h h1 fs1 hwf (wf_get_refs hwf hga) hcfs
          obtain ⟨L, hL, hge⟩ := PF.fresh
          have hWFa : (h1.alloc fs1).1.WF := alloc_WF h1 fs1 PF.wf PF.refsIn
          have hagree : ∀ b ∈ L, (h1.alloc fs1).1.get b = h1.get b := by
            intro b hb
            have hne : h1.get b ≠ none :=
              reachFsWith_mem (reach n h1) (fun c => h1.get c ≠ none)
                (fun w Lw hw => reach_mem n h1 w Lw hw) fs1 L hL b hb
            have hlt : b < h1.next := by
              cases hgb : h1.get b with
              | none => exact absurd hgb hne
              | some g => exact wf_get_lt PF.wf hgb
            exact get_alloc_ne h1 fs1 b (Nat.ne_of_lt hlt)
          obtain ⟨hreachT, hreadT⟩ :=
            reachFsWith_stab (reach n h1) (reach n (h1.alloc fs1).1)
              (readBack n h1) (readBack n (h1.alloc fs1).1)
              (fun b => (h1.alloc fs1).1.get b = h1.get b)
              (fun w Lw hw hpw => reach_stab n h1 (h1.alloc fs1).1 w Lw hw hpw)
              fs1 L hL hagree
          have hgetSelf : (h1.alloc fs1).1.get h1.next = some fs1 := get_alloc_self h1 fs1
          refine ⟨?_, hWFa, ?_, ?_, ?_, ?_⟩
          · exact le_trans PF.next_le (Nat.le_succ _)
          · intro b hb
            have hlt1 : b < h1.next := lt_of_lt_of_le hb PF.next_le
            rw [get_alloc_ne h1 fs1 b (Nat.ne_of_lt hlt1), PF.get_low b hb]
          · exact Nat.lt_succ_self _
          · refine ⟨h1.next :: L, ?_, ?_⟩
            · show reach (n + 1) (h1.alloc fs1).1 (.ref h1.next) = some (h1.next :: L)
              rw [reach_ref_eq n (h1.alloc fs1).1 h1.next fs1 hgetSelf, hreachT]
            · intro b hb
              cases List.mem_cons.mp hb with
              | inl h0 => rw [h0]; exact PF.next_le
              | inr h0 => exact hge b h0
          · show readBack (n + 1) (h1.alloc fs1).1 (.ref h1.next) =
              readBack (n + 1) h (.ref a)
            rw [readBack_ref_eq n (h1.alloc fs1).1 h1.next fs1 hgetSelf,
              readBack_ref_eq n h a fs hga, hreadT, PF.deepEq]

/-! ### Store-level theorems over the heap model -/

theorem HStore.notify_heap (s : HStore) : s.notify.heap = s.heap := by
  unfold HStore.notify; split <;> rfl

theorem HStore.notify_root (s : HStore) : s.notify.root = s.root := by
  unfold HStore.notify; split <;> rfl

theorem HStore.notify_queued (s : HStore) : s.notify.queued = true := by
  unfold HStore.notify
  split
  · next h => exact h
  · rfl

/-- Claim C5 (counterexample): construct with `{x: 0}`, then mutate
the caller's own initial object to `{x: 1}`.  `getTree()` still
resolves `x` to `0` (the live state was deep-copied), but the claim
also predicts `reset()` is unaffected — yet `reset()` restores
`x = 1`, because the retained snapshot is the caller's object itself,
not a copy. -/
theorem reset_sees_initial_mutation :
    HStore.construct 2 h0ex (.ref 0) = some st1ex ∧
    getPath h0ex (.ref 0) ["x"] = .prim (.num 0) ∧
    getPath st2ex.heap st2ex.root ["x"] = .prim (.num 0) ∧
    HStore.reset 2 st2ex = some st3ex ∧
    getPath st3ex.heap st3ex.root ["x"] = .prim (.num 1) ∧
    (.prim (.num 1) : JSVal) ≠ .prim (.num 0) := by decide

/-- Claim C5 (amended): construction deep-copies the supplied initial
value into the live State only, so a mutation applied to the caller's
initial object after construction never changes what `getTree()`
reads back; but the retained snapshot is the caller's object itself
(no copy), so a later `reset()` restores a deep copy of that object's
current — possibly mutated — content. -/
theorem construct_clones_state_snapshot_aliases
    (h0 : Heap) (initV : JSVal) (n m : Nat) (h1 h3 : Heap) (root root3 : JSVal)
    (a' : Nat) (fs' : Fields)
    (hwf : h0.WF) (hv : valRefsLt h0.next initV)
    (hc : cloneDeep n h0 initV = some (h1, root))
    (ha' : a' < h0.next)
    (hfs' : ∀ q ∈ fs', valRefsLt h1.next q.2)
    (hm : cloneDeep m (h1.setObj a' fs') initV = some (h3, root3)) :
    readBack n (h1.setObj a' fs') root = readBack n h1 root ∧
    readBack m h3 root3 = readBack m (h1.setObj a' fs') initV := by
  have P := cloneDeep_post n h0 initV h1 root hwf hv hc
  obtain ⟨L, hL, hge⟩ := P.fresh
  constructor
  · have hagree : ∀ b ∈ L, (h1.setObj a' fs').get b = h1.get b := by
      intro b hb
      have hab : a' < b := lt_of_lt_of_le ha' (hge b hb)
      exact get_setObj_ne h1 a' b fs' (Nat.ne_of_gt hab)
    exact (reach_stab n h1 (h1.setObj a' fs') root L hL hagree).2
  · have hwf2 : (h1.setObj a' fs').WF := setObj_WF h1 a' fs' P.wf hfs'
    have hv2 : valRefsLt (h1.setObj a' fs').next initV := by
      show valRefsLt h1.next initV
      exact valRefsLt_mono P.next_le hv
    exact (cloneDeep_post m (h1.setObj a' fs') initV h3 root3 hwf2 hv2 hm).deepEq

/-- Concrete instance of `construct_clones_state_snapshot_aliases` on
the `{x: 0}` store with the caller mutating `x` to `1`. -/
theorem construct_clones_state_snapshot_aliases_witness :
    readBack 2 (h1ex.setObj 0 [("x", .prim (.num 1))]) (.ref 1) =
      readBack 2 h1ex (.ref 1) ∧
    readBack 2 h3ex (.ref 2) =
      readBack 2 (h1ex.setObj 0 [("x", .prim (.num 1))]) (.ref 0) :=
  construct_clones_state_snapshot_aliases h0ex (.ref 0) 2 2 h1ex h3ex (.ref 1)
    (.ref 2) 0 [("x", .prim (.num 1))] (by decide) (by decide) (by decide)
    (by decide) (by decide) (by decide)

/-- Claim C7 (counterexample): after the caller mutates their initial
object, `reset()` restores the mutated content, which is not
deep-equal to the originally constructed initial value (`x` resolves
to `1` instead of `0`). -/
theorem reset_not_deep_equal_original :
    HStore.reset 2 st2ex = some st3ex ∧
    getPath st3ex.heap st3ex.root ["x"] ≠ getPath h0ex (.ref 0) ["x"] := by decide

/-- Claim C7 (amended): after `reset()` the state reads back
deep-equal to the caller's initial object's value at reset time (the
originally constructed value only if the caller never mutated their
object), and it is a structurally fresh instance: its reachable
addresses are disjoint from those of the retained snapshot and of the
prior State instance. -/
theorem reset_restores_fresh_copy
    (h : Heap) (initV root : JSVal) (n m : Nat) (h' : Heap) (root' : JSVal)
    (Lr Li : List Nat)
    (hwf : h.WF) (hvi : valRefsLt h.next initV)
    (hr : reach n h root = some Lr) (hi : reach n h initV = some Li)
    (hc : cloneDeep m h initV = some (h', root')) :
    readBack m h' root' = readBack m h initV ∧
    ∃ L', reach m h' root' = some L' ∧ ∀ b ∈ L', b ∉ Lr ∧ b ∉ Li := by
  have P := cloneDeep_post m h initV h' root' hwf hvi hc
  obtain ⟨L', hL', hge⟩ := P.fresh
  refine ⟨P.deepEq, L', hL', ?_⟩
  intro b hb
  have hbge := hge b hb
  constructor
  · intro hcon
    exact absurd (reach_lt_next hwf hr b hcon) (not_lt_of_le hbge)
  · intro hcon
    exact absurd (reach_lt_next hwf hi b hcon) (not_lt_of_le hbge)

/-- Concrete instance of `reset_restores_fresh_copy` on the mutated
`{x: 1}` snapshot. -/
theorem reset_restores_fresh_copy_witness :
    readBack 2 h3ex (.ref 2) = readBack 2 h2ex (.ref 0) ∧
    ∃ L', reach 2 h3ex (.ref 2) = some L' ∧ ∀ b ∈ L', b ∉ [1] ∧ b ∉ [0] :=
  reset_restores_fresh_copy h2ex (.ref 0) (.ref 1) 2 2 h3ex (.ref 2) [1] [0]
    (by decide) (by decide) (by decide) (by decide) (by decide)

theorem lookupF_setField_self :
    ∀ (t : Fields) (k : String) (v : JSVal),
      lookupF (setField t k v) k = some v := by
  intro t
  induction t with
  | nil => intro k v; rw [setField, lookupF, if_pos rfl]
  | cons q rest ih =>
    intro k v
    obtain ⟨k', v'⟩ := q
    rw [setField]
    by_cases hk : k' = k
    · rw [if_pos hk, lookupF, if_pos rfl]
    · rw [if_neg hk, lookupF, if_neg hk]
      exact ih k v

theorem lookupF_setField_ne :
    ∀ (t : Fields) (k k2 : String) (v : JSVal), k2 ≠ k →
      lookupF (setField t k v) k2 = lookupF t k2 := by
  intro t
  induction t with
  | nil =>
    intro k k2 v hne
    rw [setField, lookupF, lookupF, if_neg (fun hc : k = k2 => hne hc.symm), lookupF]
  | cons q rest ih =>
    intro k k2 v hne
    obtain ⟨k', v'⟩ := q
    rw [setField]
    by_cases hk : k' = k
    · subst hk
      rw [if_pos rfl, lookupF, lookupF,
        if_neg (fun hc : k' = k2 => hne hc.symm),
        if_neg (fun hc : k' = k2 => hne hc.symm)]
    · rw [if_neg hk, lookupF, lookupF]
      by_cases hk2 : k' = k2
      · rw [if_pos hk2, if_pos hk2]
      · rw [if_neg hk2, if_neg hk2]
        exact ih k k2 v hne

/-- Keys absent from the fork are untouched by `_.assign`. -/
theorem assign_lookup_not_mem :
    ∀ (src t : Fields) (k : String), k ∉ src.map Prod.fst →
      lookupF (assignFields t src) k = lookupF t k := by
  intro src
  induction src with
  | nil => intro t k _; rfl
  | cons q rest ih =>
    intro t k hk
    obtain ⟨k0, v0⟩ := q
    rw [List.map_cons] at hk
    have hk0 : k ≠ k0 := fun hc => hk (by rw [hc]; exact List.mem_cons_self _ _)
    have hkrest : k ∉ rest.map Prod.fst := fun hc => hk (List.mem_cons_of_mem _ hc)
    rw [assignFields, ih (setField t k0 v0) k hkrest,
      lookupF_setField_ne t k0 k v0 hk0]

/-- Every fork key ends up mapped to the fork's value after
`_.assign` (fork keys are unique, as JavaScript object keys are). -/
theorem assign_lookup_mem :
    ∀ (src t : Fields) (k : String) (v : JSVal),
      (k, v) ∈ src → (src.map Prod.fst).Nodup →
      lookupF (assignFields t src) k = some v := by
  intro src
  induction src with
  | nil => intro t k v hmem _; exact absurd hmem (List.not_mem_nil _)
  | cons q rest ih =>
    intro t k v hmem hnd
    obtain ⟨k0, v0⟩ := q
    rw [List.map_cons] at hnd
    have hk0nd : k0 ∉ rest.map Prod.fst := (List.nodup_cons.mp hnd).1
    have hndr := (List.nodup_cons.mp hnd).2
    rw [assignFields]
    cases List.mem_cons.mp hmem with
    | inl h0 =>
      injection h0 with h1 h2
      subst h1; subst h2
      rw [assign_lookup_not_mem rest (setField t k v) k hk0nd,
        lookupF_setField_self t k v]
    | inr h0 => exact ih (setField t k0 v0) k v h0 hndr

/-- Claim C9: `set(fork)` (`state = _.assign(state, fork); notify()`)
overwrites exactly the top-level own keys of the fork in the state
object — each fork key afterwards maps to the fork's value, with
nested objects replaced wholesale by reference, not merged — leaves
every other top-level key unchanged, and then requests a flush. -/
theorem set_shallow_merges_and_notifies
    (s : HStore) (a : Nat) (fs fork : Fields)
    (hroot : s.root = .ref a) (hget : s.heap.get a = some fs)
    (hnd : (fork.map Prod.fst).Nodup) :
    (s.set fork).heap.get a = some (assignFields fs fork) ∧
    (∀ k v, (k, v) ∈ fork → lookupF (assignFields fs fork) k = some v) ∧
    (∀ k, k ∉ fork.map Prod.fst →
      lookupF (assignFields fs fork) k = lookupF fs k) ∧
    (s.set fork).queued = true := by
  obtain ⟨heap, iv, root, qd, sch⟩ := s
  dsimp only at hroot hget
  subst hroot
  have hset : HStore.set ⟨heap, iv, .ref a, qd, sch⟩ fork =
      HStore.notify ⟨heap.setObj a (assignFields fs fork), iv, .ref a, qd, sch⟩ := by
    simp only [HStore.set]
    rw [hget]
  rw [hset]
  refine ⟨?_, ?_, ?_, ?_⟩
  · rw [HStore.notify_heap]
    exact get_setObj_self heap a _ fs hget
  · intro k v hkv
    exact assign_lookup_mem fork fs k v hkv hnd
  · intro k hk
    exact assign_lookup_not_mem fork fs k hk
  · exact HStore.notify_queued _

/-- Concrete instance of `set_shallow_merges_and_notifies` on the
`{x: 0}` store with fork `{x: 2, y: <ref>}`. -/
theorem set_shallow_merges_and_notifies_witness :
    (st1ex.set forkEx).heap.get 1 =
      some (assignFields [("x", .prim (.num 0))] forkEx) ∧
    (∀ k v, (k, v) ∈ forkEx →
      lookupF (assignFields [("x", .prim (.num 0))] forkEx) k = some v) ∧
    (∀ k, k ∉ forkEx.map Prod.fst →
      lookupF (assignFields [("x", .prim (.num 0))] forkEx) k =
        lookupF [("x", .prim (.num 0))] k) ∧
    (st1ex.set forkEx).queued = true :=
  set_shallow_merges_and_notifies st1ex 1 [("x", .prim (.num 0))] forkEx rfl
    (by decide) (by decide)

theorem cloneFsWith_next_mono (cl : Heap → JSVal → Option (Heap × JSVal))
    (ihv : ∀ (h : Heap) (v : JSVal) (h' : Heap) (v' : JSVal),
      cl h v = some (h', v') → h.next ≤ h'.next) :
    ∀ (fs : Fields) (h h1 : Heap) (fs1 : Fields),
      cloneFsWith cl h fs = some (h1, fs1) → h.next ≤ h1.next := by
  intro fs
  induction fs with
  | nil =>
    intro h h1 fs1 hc
    rw [cloneFsWith] at hc
    injection hc with hc
    injection hc with hh _
    rw [hh]
  | cons q rest ihfs =>
    intro h h1 fs1 hc
    obtain ⟨k, v⟩ := q
    rw [cloneFsWith] at hc
    split at hc
    · exact absurd hc (by simp)
    · rename_i hA v1 hcv
      split at hc
      · exact absurd hc (by simp)
      · rename_i h2 fsR hcr
        injection hc with hc
        injection hc with hh _
        exact le_trans (ihv h v hA v1 hcv) (le_trans (ihfs hA h2 fsR hcr) (by rw [hh]))

/-- Cloning only allocates: the heap's `next` address never
decreases. -/
theorem cloneDeep_next_mono :
    ∀ (n : Nat) (h : Heap) (v : JSVal) (h' : Heap) (v' : JSVal),
      cloneDeep n h v = some (h', v') → h.next ≤ h'.next := by
  intro n
  induction n with
  | zero =>
    intro h v h' v' hc
    cases v with
    | prim p =>
      rw [cloneDeep] at hc
      injection hc with hc
      injection hc with hh _
      rw [hh]
    | ref a => exact absurd hc (by rw [cloneDeep]; simp)
  | succ n ihn =>
    intro h v h' v' hc
    cases v with
    | prim p =>
      rw [cloneDeep] at hc
      injection hc with hc
      injection hc with hh _
      rw [hh]
    | ref a =>
      cases hga : h.get a with
      | none => rw [cloneDeep, hga] at hc; exact absurd hc (by simp)
      | some fs =>
        rw [cloneDeep_ref_eq n h a fs hga] at hc
        cases hcfs : cloneFsWith (cloneDeep n) h fs with
        | none => rw [hcfs] at hc; exact absurd hc (by simp)
        | some r =>
          obtain ⟨h1, fs1⟩ := r
          rw [hcfs] at hc
          injection hc with hc
          injection hc with hh _
          have hmono := cloneFsWith_next_mono (cloneDeep n)
            (fun hh0 vv hh1 vv1 hcc => ihn hh0 vv hh1 vv1 hcc) fs h h1 fs1 hcfs
          rw [← hh]
          exact le_trans hmono (Nat.le_succ _)

/-- Cloning an object reference yields a reference to a freshly
allocated address. -/
theorem cloneDeep_ref_fresh (n : Nat) (h : Heap) (b : Nat) (h' : Heap) (v' : JSVal)
    (hc : cloneDeep n h (.ref b) = some (h', v')) :
    ∃ a', v' = .ref a' ∧ h.next ≤ a' := by
  cases n with
  | zero => exact absurd hc (by rw [cloneDeep]; simp)
  | succ n =>
    cases hgb : h.get b with
    | none => rw [cloneDeep, hgb] at hc; exact absurd hc (by simp)
    | some fs =>
      rw [cloneDeep_ref_eq n h b fs hgb] at hc
      cases hcfs : cloneFsWith (cloneDeep n) h fs with
      | none => rw [hcfs] at hc; exact absurd hc (by simp)
      | some r =>
        obtain ⟨h1, fs1⟩ := r
        rw [hcfs] at hc
        injection hc with hc
        injection hc with hh hvv
        refine ⟨h1.next, hvv.symm, ?_⟩
        exact cloneFsWith_next_mono (cloneDeep n)
          (fun hh0 vv hh1 vv1 hcc => cloneDeep_next_mono n hh0 vv hh1 vv1 hcc)
          fs h h1 fs1 hcfs

/-- `set` never reassigns the `state` variable to a different object:
`_.assign` mutates and returns its target. -/
theorem HStore.set_root (s : HStore) (fork : Fields) : (s.set fork).root = s.root := by
  rw [HStore.set]
  split
  · split
    · rw [HStore.notify_root]
    · rw [HStore.notify_root]
  · rw [HStore.notify_root]

/-- Claim C10: `set(fork)` preserves the identity of the canonical
state object — `getTree()` returns the same reference before and
after any `set`, so a whole-tree reference obtained earlier observes
the merged keys — while `reset()` replaces the canonical reference
with a freshly allocated object. -/
theorem set_preserves_canonical_reference
    (s s' : HStore) (fork : Fields) (i a m : Nat)
    (hi : s.initialRef = .ref i) (hroot : s.root = .ref a)
    (hwf : s.heap.WF) (hget : s.heap.get a ≠ none)
    (hrs : HStore.reset m s = some s') :
    (s.set fork).getTree = s.getTree ∧ s'.getTree ≠ s.getTree := by
  refine ⟨HStore.set_root s fork, ?_⟩
  rw [HStore.reset] at hrs
  cases hc : cloneDeep m s.heap s.initialRef with
  | none => rw [hc] at hrs; exact absurd hrs (by simp)
  | some r =>
    obtain ⟨h', v'⟩ := r
    rw [hc] at hrs
    injection hrs with hrs
    rw [hi] at hc
    obtain ⟨a', hv', hge⟩ := cloneDeep_ref_fresh m s.heap i h' v' hc
    have halt : a < s.heap.next := by
      cases hga : s.heap.get a with
      | none => exact absurd hga hget
      | some fs => exact wf_get_lt hwf hga
    have hroot' : s'.root = v' := by rw [← hrs, HStore.notify_root]
    show s'.root ≠ s.root
    rw [hroot', hroot, hv']
    intro hcon
    injection hcon with hcon
    rw [hcon] at hge
    exact absurd halt (not_lt_of_le hge)

/-- Concrete instance of `set_preserves_canonical_reference` on the
`{x: 0}` store. -/
theorem set_preserves_canonical_reference_witness :
    (st1ex.set forkEx).getTree = st1ex.getTree ∧
    stResetEx.getTree ≠ st1ex.getTree :=
  set_preserves_canonical_reference st1ex stResetEx forkEx 0 1 2 rfl rfl
    (by decide) (by decide) (by decide)
